import Mathlib

/-!
Verification development for the `hyx::autoseq` lazily-evaluated, memoizing
sequence container (header `include/hyx_autoseq.hpp`, demonstration program
`tests/test_autoseq.cpp`).

The C++ container is shallowly embedded: the element cache (`std::vector<T>`)
is a `List T`, its capacity is tracked as a `Nat` (recording the capacity
value requested from the backing storage), and the stored formula
(`std::move_only_function<T(size_t, std::span<const T>) const>`) is a Lean
function `Nat → List T → T`.  `size_t` values are modelled as `Nat` (the
quantities involved are sizes of materialized lists, far below any wraparound).
The `while (cache_.size() < needed_size)` fill loop appends exactly one element
per iteration, so it is embedded as structural recursion on the number of
missing elements (`needed_size - cache_.size()`).  Fallible accesses are
embedded with `Option`: `none` is the assertion-failure / out-of-range branch.
-/

namespace hyx

/-- `autoseq_detail::MathContext<T>`: the computation context handed to a
Shape-B rule. `index_val` is the index being computed, `history` the view of
the already-computed elements. -/
structure MathContext (T : Type) where
  index_val : Nat
  history : List T

/-- `MathContext::n()`. -/
def MathContext.n {T : Type} (c : MathContext T) : Nat := c.index_val

/-- `MathContext::last()`: `assert(!history.empty()); return history.back();`.
`none` models the assertion-failure branch (empty history). -/
def MathContext.last {T : Type} (c : MathContext T) : Option T :=
  c.history.getLast?

/-- `MathContext::operator[](i)`: `assert(i < history.size()); return history[i];`.
`none` models the assertion-failure branch (`i` out of range). -/
def MathContext.getIdx {T : Type} (c : MathContext T) (i : Nat) : Option T :=
  c.history[i]?

/-- Exponent search for `std::bit_ceil`: the least `k' ≥ k` with `x ≤ 2 ^ k'`,
found by linear search; `fuel` bounds the search (any `fuel` with
`x ≤ 2 ^ (k + fuel)` suffices). -/
def bcExp (x : Nat) : Nat → Nat → Nat
  | 0, k => k
  | fuel + 1, k => if x ≤ 2 ^ k then k else bcExp x fuel (k + 1)

/-- `std::bit_ceil(x)`: the least power of two that is `≥ x` (`1` for `x ≤ 1`). -/
def bitCeil (x : Nat) : Nat := 2 ^ bcExp x x 0

/-- `p` is a power of two. -/
def isPow2 (p : Nat) : Prop := ∃ k, p = 2 ^ k

/-- The capacity value passed to `cache_.reserve` in `ensure_calculated` when
`needed_size > old_cap`:
`new_cap = old_cap + (old_cap >> 1); if (new_cap < needed) new_cap = needed;
if (new_cap < 1024) new_cap = std::bit_ceil(new_cap);`. -/
def growRequest (oldCap needed : Nat) : Nat :=
  let newCap0 := oldCap + oldCap / 2
  let newCap1 := if newCap0 < needed then needed else newCap0
  if newCap1 < 1024 then bitCeil newCap1 else newCap1

/-- `hyx::autoseq<T>`: cached elements, tracked capacity, and the adapted
formula (the canonical `(index, history) → value` callable produced by
`autoseq_detail::make_dispatch`). -/
structure Autoseq (T : Type) where
  formula : Nat → List T → T
  cache : List T
  cap : Nat

/-- The `while (cache_.size() < needed_size)` loop body of `ensure_calculated`,
iterated `k` times: each iteration computes
`formula_(cache_.size(), std::span(cache_))` and appends the result. -/
def fillN {T : Type} (f : Nat → List T → T) (c : List T) : Nat → List T
  | 0 => c
  | k + 1 => fillN f (c ++ [f c.length c]) k

/-- `autoseq::ensure_calculated(target_index)`. -/
def ensure_calculated {T : Type} (s : Autoseq T) (target : Nat) : Autoseq T :=
  if target < s.cache.length then s
  else
    let needed := target + 1
    let cap' := if s.cap < needed then growRequest s.cap needed else s.cap
    { s with cap := cap',
             cache := fillN s.formula s.cache (needed - s.cache.length) }

/-- `autoseq::operator[](n)`: `ensure_calculated(n); return cache_[n];`.
The value is reported with `Option`; `none` is the (unreachable)
out-of-range branch of the unchecked `cache_[n]`. -/
def index_access {T : Type} (s : Autoseq T) (n : Nat) : Autoseq T × Option T :=
  let s' := ensure_calculated s n
  (s', s'.cache[n]?)

/-- `autoseq::at(n)`: `ensure_calculated(n); return cache_.at(n);`.
`none` is the (unreachable) `std::out_of_range` branch of `cache_.at(n)`. -/
def at_access {T : Type} (s : Autoseq T) (n : Nat) : Autoseq T × Option T :=
  let s' := ensure_calculated s n
  (s', s'.cache[n]?)

/-- `autoseq::prefetch_up_to(n)`. -/
def prefetch_up_to {T : Type} (s : Autoseq T) (n : Nat) : Autoseq T :=
  ensure_calculated s n

/-- `autoseq::reserve(n)`: forwards to `cache_.reserve(n)`; capacity only
ever grows. -/
def reserve {T : Type} (s : Autoseq T) (n : Nat) : Autoseq T :=
  { s with cap := if s.cap < n then n else s.cap }

/-- `autoseq::operator[](start, end)` (slice): `assert(start <= end)` (the
`none` branch), empty span when `start == end`, otherwise
`ensure_calculated(end - 1)` and a span over `[start, end)`. -/
def slice_access {T : Type} (s : Autoseq T) (a b : Nat) :
    Option (Autoseq T × List T) :=
  if a ≤ b then
    if a = b then some (s, [])
    else
      let s' := ensure_calculated s (b - 1)
      some (s', (s'.cache.drop a).take (b - a))
  else none

/-- `autoseq::view()`: the read-only span over the cached elements. -/
def view {T : Type} (s : Autoseq T) : List T := s.cache

/-- `autoseq::snapshot() const &`: returns a copy of `cache_`; the container
is untouched. -/
def snapshot_copy {T : Type} (s : Autoseq T) : List T × Autoseq T :=
  (s.cache, s)

/-- `autoseq::snapshot() &&`: returns `std::move(cache_)`; the moved-from
vector is left empty (the behavior the header documents and the test relies
on), so the source container keeps its formula but loses all cached data. -/
def snapshot_move {T : Type} (s : Autoseq T) : List T × Autoseq T :=
  (s.cache, { s with cache := [], cap := 0 })

/-- `autoseq::size()`. -/
def size {T : Type} (s : Autoseq T) : Nat := s.cache.length

/-- The `autoseq` constructor: stores the adapted formula, reserves room for
the seed values and pushes each of them (already of element type) into the
cache. -/
def autoseq_mk {T : Type} (f : Nat → List T → T) (seeds : List T) : Autoseq T :=
  { formula := f, cache := seeds, cap := seeds.length }

/-- The `autoseq` constructor with the `static_cast<T>(init_values)`
conversion made explicit: each seed of type `S` is converted by `convT`
before being pushed, in argument order. -/
def autoseq_mk_of {S T : Type} (f : Nat → List T → T) (convT : S → T)
    (seeds : List S) : Autoseq T :=
  autoseq_mk f (seeds.map convT)

/-! ### Ghost instrumentation

The trace of formula invocations: each entry records the pair
`(index, history)` a single `formula_(cache_.size(), std::span(cache_))`
call receives.  The traced definitions recompute exactly what the plain
definitions do; the trace is proof-side bookkeeping. -/

/-- Invocation trace of the fill loop (`fillN`): one `(index, history)`
entry per loop iteration, in execution order. -/
def fillTrace {T : Type} (f : Nat → List T → T) (c : List T) :
    Nat → List (Nat × List T)
  | 0 => []
  | k + 1 => (c.length, c) :: fillTrace f (c ++ [f c.length c]) k

/-- Invocation trace of `ensure_calculated`. -/
def ensureTrace {T : Type} (s : Autoseq T) (target : Nat) :
    List (Nat × List T) :=
  if target < s.cache.length then []
  else fillTrace s.formula s.cache (target + 1 - s.cache.length)

/-- The public operations of the container that keep it alive (spec §6):
indexed access, checked access, prefetch, reserve, slice, full view, copying
snapshot, size query.  A consuming (r-value) snapshot transfers ownership and
ends the container's logical lifetime, so it is not an `Op`. -/
inductive Op where
  | idx (n : Nat)
  | atIdx (n : Nat)
  | prefetchOp (n : Nat)
  | reserveCap (n : Nat)
  | sliceRange (a b : Nat)
  | viewAll
  | snapshotC
  | sizeQuery

/-- State transition of one public operation. -/
def opStep {T : Type} (s : Autoseq T) : Op → Autoseq T
  | .idx n => ensure_calculated s n
  | .atIdx n => ensure_calculated s n
  | .prefetchOp n => ensure_calculated s n
  | .reserveCap n => reserve s n
  | .sliceRange a b => if a < b then ensure_calculated s (b - 1) else s
  | .viewAll => s
  | .snapshotC => s
  | .sizeQuery => s

/-- Formula-invocation trace of one public operation. -/
def opTrace {T : Type} (s : Autoseq T) : Op → List (Nat × List T)
  | .idx n => ensureTrace s n
  | .atIdx n => ensureTrace s n
  | .prefetchOp n => ensureTrace s n
  | .sliceRange a b => if a < b then ensureTrace s (b - 1) else []
  | _ => []

/-- Run a sequence of public operations, collecting the final state and the
concatenated formula-invocation trace. -/
def runOps {T : Type} (s : Autoseq T) : List Op → Autoseq T × List (Nat × List T)
  | [] => (s, [])
  | op :: ops =>
    let r := runOps (opStep s op) ops
    (r.1, opTrace s op ++ r.2)

/-! ### The concrete scenario of `tests/test_autoseq.cpp` (spec §8)

Two `hyx::autoseq<uint64_t>` containers: `fib` with seeds `0, 1` and rule
`F[n-1] + F[n-2]`, and `sum` with seed `0` and the rule
`F[n-1] + fib[F.n()]`, which reads (and thereby grows) the `fib` container.
`uint64_t` arithmetic is `Nat` arithmetic modulo `2 ^ 64`. -/

/-- `2 ^ 64`, the modulus of `uint64_t` arithmetic. -/
def U64 : Nat := 18446744073709551616

/-- The adapted rule of `fib`: `F[F.n() - 1] + F[F.n() - 2]` on `uint64_t`.
Every reachable invocation has `n ≥ 2` with `history.length = n`, so both
context accesses are in range; the `getD` default covers only the
assertion-failure branches. -/
def fibFormula (n : Nat) (h : List Nat) : Nat :=
  (h.getD (n - 1) 0 + h.getD (n - 2) 0) % U64

/-- The `fib` container right after construction. -/
def fib0 : Autoseq Nat := autoseq_mk fibFormula [0, 1]

/-- The coupled state of the scenario: the captured `fib` container plus the
cache and capacity of `sum`. -/
structure SumScen where
  fib : Autoseq Nat
  cache : List Nat
  cap : Nat

/-- The fill loop of `sum`'s `ensure_calculated`.  Its rule
`F[F.n() - 1] + fib[F.n()]` invokes `fib.operator[]`, which may grow the
captured `fib` container, so the loop threads `fib`'s state. -/
def sumFill (fb : Autoseq Nat) (c : List Nat) : Nat → Autoseq Nat × List Nat
  | 0 => (fb, c)
  | k + 1 =>
    let n := c.length
    let fr := index_access fb n
    let v := (c.getD (n - 1) 0 + (fr.2).getD 0) % U64
    sumFill fr.1 (c ++ [v]) k

/-- `ensure_calculated` of the `sum` container. -/
def sumEnsure (s : SumScen) (target : Nat) : SumScen :=
  if target < s.cache.length then s
  else
    let needed := target + 1
    let cap' := if s.cap < needed then growRequest s.cap needed else s.cap
    let r := sumFill s.fib s.cache (needed - s.cache.length)
    { fib := r.1, cache := r.2, cap := cap' }

/-- `sum.operator[](n)`. -/
def sumIndex (s : SumScen) (n : Nat) : SumScen × Nat :=
  let s' := sumEnsure s n
  (s', s'.cache.getD n 0)

/-- `sum.at(n)` (same computation; `at` only differs in how the unreachable
out-of-range case would surface). -/
def sumAt (s : SumScen) (n : Nat) : SumScen × Nat :=
  let s' := sumEnsure s n
  (s', s'.cache.getD n 0)

/-- `sum.operator[](start, end)` for `start < end`. -/
def sumSlice (s : SumScen) (a b : Nat) : SumScen × List Nat :=
  let s' := sumEnsure s (b - 1)
  (s', (s'.cache.drop a).take (b - a))

/-- `sum.reserve(n)`. -/
def sumReserve (s : SumScen) (n : Nat) : SumScen :=
  { s with cap := if s.cap < n then n else s.cap }

/-- `sum.prefetch_up_to(n)`. -/
def sumPrefetch (s : SumScen) (n : Nat) : SumScen := sumEnsure s n

/-- The `sum` container right after construction (seed `0`). -/
def sum0 : SumScen := { fib := fib0, cache := [0], cap := 1 }

/-- Scenario step 1: `sum[5]`. -/
def scnP5 : SumScen × Nat := sumIndex sum0 5

/-- Scenario step 2: `sum.at(10)`. -/
def scnP10 : SumScen × Nat := sumAt scnP5.1 10

/-- Scenario step 3: `sum[3, 8]`. -/
def scnSl : SumScen × List Nat := sumSlice scnP10.1 3 8

/-- Scenario step 4: `sum.reserve(100)`. -/
def scnS4 : SumScen := sumReserve scnSl.1 100

/-- Scenario step 5: `sum.prefetch_up_to(20)`. -/
def scnS5 : SumScen := sumPrefetch scnS4 20

/-! ### Helper lemmas -/

lemma fillN_length {T : Type} (f : Nat → List T → T) :
    ∀ (k : Nat) (c : List T), (fillN f c k).length = c.length + k := by
  intro k
  induction k with
  | zero => intro c; rfl
  | succ k ih =>
    intro c
    show (fillN f (c ++ [f c.length c]) k).length = c.length + (k + 1)
    rw [ih]
    simp
    omega

lemma fillN_take {T : Type} (f : Nat → List T → T) :
    ∀ (k : Nat) (c : List T), (fillN f c k).take c.length = c := by
  intro k
  induction k with
  | zero => intro c; exact List.take_length c
  | succ k ih =>
    intro c
    have h2 : (fillN f (c ++ [f c.length c]) k).take (c.length + 1)
        = c ++ [f c.length c] := by
      have h3 := ih (c ++ [f c.length c])
      simpa using h3
    show (fillN f (c ++ [f c.length c]) k).take c.length = c
    calc (fillN f (c ++ [f c.length c]) k).take c.length
        = ((fillN f (c ++ [f c.length c]) k).take (c.length + 1)).take
            c.length := by
          rw [List.take_take]
          congr 1
          omega
      _ = (c ++ [f c.length c]).take c.length := by rw [h2]
      _ = c := by simp

lemma fillN_get {T : Type} (f : Nat → List T → T) :
    ∀ (k : Nat) (c : List T) (i : Nat), c.length ≤ i → i < c.length + k →
      (fillN f c k)[i]? = some (f i ((fillN f c k).take i)) := by
  intro k
  induction k with
  | zero => intro c i h1 h2; omega
  | succ k ih =>
    intro c i h1 h2
    by_cases hi : i = c.length
    · subst hi
      have htake : (fillN f c (c.length + 1 - c.length)).take c.length = c := by
        have := fillN_take f (c.length + 1 - c.length) c
        simpa using this
      have hone : c.length + 1 - c.length = 1 := by omega
      rw [hone] at htake
      have htake1 : (fillN f (c ++ [f c.length c]) k).take (c.length + 1)
          = c ++ [f c.length c] := by
        have h3 := fillN_take f k (c ++ [f c.length c])
        simpa using h3
      show (fillN f (c ++ [f c.length c]) k)[c.length]?
          = some (f c.length ((fillN f (c ++ [f c.length c]) k).take c.length))
      have hget : (fillN f (c ++ [f c.length c]) k)[c.length]?
          = some (f c.length c) := by
        have h4 : ((fillN f (c ++ [f c.length c]) k).take (c.length + 1))[c.length]?
            = (fillN f (c ++ [f c.length c]) k)[c.length]? :=
          List.getElem?_take_of_lt (by omega)
        rw [← h4, htake1]
        exact List.getElem?_concat_length c (f c.length c)
      have htk : (fillN f (c ++ [f c.length c]) k).take c.length = c := by
        calc (fillN f (c ++ [f c.length c]) k).take c.length
            = ((fillN f (c ++ [f c.length c]) k).take (c.length + 1)).take
                c.length := by
              rw [List.take_take]
              congr 1
              omega
          _ = (c ++ [f c.length c]).take c.length := by rw [htake1]
          _ = c := by simp
      rw [hget, htk]
    · have h1' : (c ++ [f c.length c]).length ≤ i := by simp; omega
      have h2' : i < (c ++ [f c.length c]).length + k := by simp; omega
      exact ih (c ++ [f c.length c]) i h1' h2'

lemma fillTrace_spec {T : Type} (f : Nat → List T → T) :
    ∀ (k : Nat) (c : List T),
      fillTrace f c k
        = (List.range' c.length k).map (fun j => (j, (fillN f c k).take j)) := by
  intro k
  induction k with
  | zero => intro c; rfl
  | succ k ih =>
    intro c
    show (c.length, c) :: fillTrace f (c ++ [f c.length c]) k
        = (List.range' c.length (k + 1)).map
            (fun j => (j, (fillN f c (k + 1)).take j))
    rw [List.range'_succ, List.map_cons]
    have hhead : (fillN f c (k + 1)).take c.length = c := fillN_take f (k + 1) c
    have htail := ih (c ++ [f c.length c])
    have hlen : (c ++ [f c.length c]).length = c.length + 1 := by simp
    rw [hlen] at htail
    rw [hhead, htail]
    rfl

lemma ensure_length {T : Type} (s : Autoseq T) (t : Nat) :
    (ensure_calculated s t).cache.length = max s.cache.length (t + 1) := by
  unfold ensure_calculated
  by_cases h : t < s.cache.length
  · simp [h]
    omega
  · simp [h, fillN_length]
    omega

lemma ensure_cache_eq {T : Type} (s : Autoseq T) (t : Nat)
    (h : ¬ t < s.cache.length) :
    (ensure_calculated s t).cache = fillN s.formula s.cache (t + 1 - s.cache.length) := by
  unfold ensure_calculated
  simp [h]

lemma ensure_empty_cache {T : Type} (s : Autoseq T) (hc : s.cache = [])
    (n : Nat) :
    (ensure_calculated s n).cache = fillN s.formula [] (n + 1) := by
  have hne : ¬ n < s.cache.length := by rw [hc]; simp
  rw [ensure_cache_eq s n hne, hc]
  simp

lemma ensureTrace_spec {T : Type} (s : Autoseq T) (t : Nat) :
    ensureTrace s t
      = (List.range' s.cache.length (t + 1 - s.cache.length)).map
          (fun j => (j, (ensure_calculated s t).cache.take j)) := by
  unfold ensureTrace
  by_cases h : t < s.cache.length
  · have h0 : t + 1 - s.cache.length = 0 := by omega
    simp [h, h0]
  · rw [if_neg h, ensure_cache_eq s t h]
    exact fillTrace_spec s.formula (t + 1 - s.cache.length) s.cache

lemma op_length_le {T : Type} (s : Autoseq T) (op : Op) :
    s.cache.length ≤ (opStep s op).cache.length := by
  cases op <;> simp [opStep, ensure_length, reserve]
  case sliceRange a b =>
    by_cases h : a < b <;> simp [h, ensure_length]

lemma op_trace_spec {T : Type} (s : Autoseq T) (op : Op) :
    (opTrace s op).map Prod.fst
      = List.range' s.cache.length ((opStep s op).cache.length - s.cache.length) := by
  have key : ∀ n : Nat, (ensureTrace s n).map Prod.fst
      = List.range' s.cache.length
          ((ensure_calculated s n).cache.length - s.cache.length) := by
    intro n
    rw [ensureTrace_spec, ensure_length, List.map_map]
    have h1 : max s.cache.length (n + 1) - s.cache.length
        = n + 1 - s.cache.length := by omega
    rw [h1]
    have h2 : (Prod.fst ∘ fun j : Nat => (j, (ensure_calculated s n).cache.take j))
        = id := rfl
    rw [h2, List.map_id]
  cases op <;> simp [opStep, opTrace, key, reserve]
  case sliceRange a b =>
    by_cases h : a < b <;> simp [h, key]

lemma runOps_spec {T : Type} :
    ∀ (ops : List Op) (s : Autoseq T),
      s.cache.length ≤ (runOps s ops).1.cache.length ∧
      (runOps s ops).2.map Prod.fst
        = List.range' s.cache.length
            ((runOps s ops).1.cache.length - s.cache.length) := by
  intro ops
  induction ops with
  | nil => intro s; simp [runOps]
  | cons op ops ih =>
    intro s
    have h1 := op_length_le s op
    have h2 := op_trace_spec s op
    have h3 := ih (opStep s op)
    constructor
    · show s.cache.length ≤ (runOps (opStep s op) ops).1.cache.length
      omega
    · show (opTrace s op ++ (runOps (opStep s op) ops).2).map Prod.fst
          = List.range' s.cache.length
              ((runOps (opStep s op) ops).1.cache.length - s.cache.length)
      rw [List.map_append, h2, h3.2]
      have h4 : (opStep s op).cache.length
          = s.cache.length + ((opStep s op).cache.length - s.cache.length) := by
        omega
      rw [show List.range' (opStep s op).cache.length
            ((runOps (opStep s op) ops).1.cache.length - (opStep s op).cache.length)
          = List.range'
              (s.cache.length + ((opStep s op).cache.length - s.cache.length))
              ((runOps (opStep s op) ops).1.cache.length - (opStep s op).cache.length)
          by rw [← h4]]
      rw [List.range'_append_1]
      congr 1
      omega

lemma lt_twoPow : ∀ n : Nat, n < 2 ^ n := by
  intro n
  induction n with
  | zero => decide
  | succ n ih =>
    have h1 : (1 : Nat) ≤ 2 ^ n := Nat.one_le_two_pow
    have h2 : 2 ^ (n + 1) = 2 ^ n + 2 ^ n := by
      rw [Nat.pow_succ]
      omega
    omega

lemma bcExp_ge (x : Nat) :
    ∀ (fuel k : Nat), x ≤ 2 ^ (k + fuel) → x ≤ 2 ^ bcExp x fuel k := by
  intro fuel
  induction fuel with
  | zero => intro k h; simpa using h
  | succ fuel ih =>
    intro k h
    show x ≤ 2 ^ (if x ≤ 2 ^ k then k else bcExp x fuel (k + 1))
    by_cases hk : x ≤ 2 ^ k
    · rw [if_pos hk]
      exact hk
    · rw [if_neg hk]
      apply ih (k + 1)
      have : k + 1 + fuel = k + (fuel + 1) := by omega
      rw [this]
      exact h

lemma bcExp_min (x : Nat) :
    ∀ (fuel k m : Nat), k ≤ m → x ≤ 2 ^ m → bcExp x fuel k ≤ m := by
  intro fuel
  induction fuel with
  | zero => intro k m hkm _; exact hkm
  | succ fuel ih =>
    intro k m hkm hxm
    show (if x ≤ 2 ^ k then k else bcExp x fuel (k + 1)) ≤ m
    by_cases hk : x ≤ 2 ^ k
    · simpa [hk] using hkm
    · rw [if_neg hk]
      apply ih (k + 1) m _ hxm
      rcases Nat.lt_or_ge k m with h | h
      · omega
      · exfalso
        have : m = k := by omega
        subst this
        exact hk hxm

lemma bitCeil_ge (x : Nat) : x ≤ bitCeil x := by
  apply bcExp_ge
  have := lt_twoPow x
  simpa using Nat.le_of_lt this

lemma bitCeil_pow2 (x : Nat) : isPow2 (bitCeil x) := ⟨bcExp x x 0, rfl⟩

lemma bitCeil_min (x p : Nat) (hp : isPow2 p) (hxp : x ≤ p) : bitCeil x ≤ p := by
  obtain ⟨k, rfl⟩ := hp
  have h1 : bcExp x x 0 ≤ k := bcExp_min x x 0 k (Nat.zero_le k) hxp
  exact Nat.pow_le_pow_right (by omega) h1

/-- The growth policy, written the way the spec states it:
`max(needed_size, floor(old_capacity * 1.5))`, rounded up to the next power
of two when below the threshold 1024. -/
def specGrowCap (oldCap needed : Nat) : Nat :=
  let c := max needed (3 * oldCap / 2)
  if c < 1024 then bitCeil c else c

lemma grow_eq_spec (oldCap needed : Nat) :
    growRequest oldCap needed = specGrowCap oldCap needed := by
  unfold growRequest specGrowCap
  have h32 : oldCap + oldCap / 2 = 3 * oldCap / 2 := by omega
  by_cases h : oldCap + oldCap / 2 < needed
  · have hmax : max needed (3 * oldCap / 2) = needed := by omega
    simp only [if_pos h, hmax]
  · have hmax : max needed (3 * oldCap / 2) = oldCap + oldCap / 2 := by omega
    simp only [if_neg h, hmax]

/-! ### Theorems -/

/-- C1: in the concrete scenario of spec §8, `S[5] = 12`, `S[10] = 143`,
the Fibonacci container holds `0,1,1,2,3,5,8,13,21,34,55` at indices 0..10,
`S.slice(3, 8) = [4, 7, 12, 20, 33]`, and after `S.reserve(100)` followed by
`S.prefetch_up_to(20)` the size of `S` is 21. -/
theorem scenario_c1 :
    scnP5.2 = 12 ∧ scnP10.2 = 143 ∧
    scnP10.1.fib.cache = [0, 1, 1, 2, 3, 5, 8, 13, 21, 34, 55] ∧
    scnSl.2 = [4, 7, 12, 20, 33] ∧
    scnS5.cache.length = 21 := by
  decide

/-- C2 (order law): the formula invocation for each computed index `j`
receives exactly the pair `(j, history)` where the history has length `j` and
consists of the cached elements `0..j-1` in order (the first `j` elements of
the final cache, so each appended element is visible to the next invocation);
there is one invocation per computed index, in increasing order. -/
theorem order_law_c2 {T : Type} (s : Autoseq T) (target : Nat) :
    ensureTrace s target
      = (List.range' s.cache.length (target + 1 - s.cache.length)).map
          (fun j => (j, (ensure_calculated s target).cache.take j))
    ∧ ∀ j h, (j, h) ∈ ensureTrace s target →
        h.length = j ∧ h = (ensure_calculated s target).cache.take j ∧
        s.cache.length ≤ j ∧ j ≤ target := by
  refine ⟨ensureTrace_spec s target, ?_⟩
  intro j h hmem
  rw [ensureTrace_spec] at hmem
  simp only [List.mem_map] at hmem
  obtain ⟨j', hj', heq⟩ := hmem
  have hj : j' = j := congrArg Prod.fst heq
  subst hj
  have hh : (ensure_calculated s target).cache.take j' = h := congrArg Prod.snd heq
  subst hh
  rw [List.mem_range'_1] at hj'
  have hlen := ensure_length s target
  refine ⟨?_, rfl, ?_, ?_⟩
  · rw [List.length_take]
    omega
  · omega
  · omega

/-- Witness for C2 at a concrete container (the Fibonacci container of the
test program) and target index 3. -/
theorem order_law_c2_witness :
    ensureTrace fib0 3
      = (List.range' fib0.cache.length (3 + 1 - fib0.cache.length)).map
          (fun j => (j, (ensure_calculated fib0 3).cache.take j)) :=
  (order_law_c2 fib0 3).1

/-- C3: `operator[](n)`, `at(n)` and `prefetch_up_to(n)` all establish
`size() > n`; `operator[]` and `at` return the cached element at index `n`
(their out-of-range branches are unreachable); when `size() > n` already
holds on entry, `ensure_calculated` is a no-op and the state is unchanged. -/
theorem access_postcondition_c3 {T : Type} (s : Autoseq T) (n : Nat) :
    n < (ensure_calculated s n).cache.length
    ∧ (index_access s n).1 = ensure_calculated s n
    ∧ (at_access s n).1 = ensure_calculated s n
    ∧ prefetch_up_to s n = ensure_calculated s n
    ∧ (∃ v, (ensure_calculated s n).cache[n]? = some v
        ∧ (index_access s n).2 = some v ∧ (at_access s n).2 = some v)
    ∧ (n < s.cache.length → ensure_calculated s n = s) := by
  have hlen := ensure_length s n
  have hn : n < (ensure_calculated s n).cache.length := by omega
  refine ⟨hn, rfl, rfl, rfl, ?_, ?_⟩
  · obtain ⟨v, hv⟩ : ∃ v, (ensure_calculated s n).cache[n]? = some v := by
      rw [List.getElem?_eq_getElem hn]
      exact ⟨_, rfl⟩
    exact ⟨v, hv, hv, hv⟩
  · intro h
    unfold ensure_calculated
    rw [if_pos h]

/-- Witness for C3 at the Fibonacci container and index 5. -/
theorem access_postcondition_c3_witness :
    5 < (ensure_calculated fib0 5).cache.length :=
  (access_postcondition_c3 fib0 5).1

/-- C4 (memoize-once): across any sequence of public operations on a
constructed container, the formula is invoked at most once with first
argument `i`, for every index `i`. -/
theorem memoize_once_c4 {T : Type} (f : Nat → List T → T) (seeds : List T)
    (ops : List Op) (i : Nat) :
    ((runOps (autoseq_mk f seeds) ops).2.map Prod.fst).count i ≤ 1 := by
  have h := (runOps_spec ops (autoseq_mk f seeds)).2
  rw [h]
  exact List.nodup_iff_count_le_one.mp (List.nodup_range' _ _) i

/-- Witness for C4: the test's Fibonacci container, a two-access operation
sequence, index 3. -/
theorem memoize_once_c4_witness :
    ((runOps (autoseq_mk fibFormula [0, 1]) [Op.idx 5, Op.atIdx 3]).2.map
        Prod.fst).count 3 ≤ 1 :=
  memoize_once_c4 fibFormula [0, 1] [Op.idx 5, Op.atIdx 3] 3

/-- C5 (growth policy): when a computing access needs `target + 1` elements
and that exceeds the current capacity, the capacity requested from the
backing storage is `max(needed, floor(old_cap * 1.5))`, rounded up to the
next power of two (`bit_ceil`, genuinely the least power of two at or above
its argument) when below 1024, and not rounded at or above 1024. -/
theorem growth_policy_c5 {T : Type} (s : Autoseq T) (target : Nat)
    (h1 : s.cache.length ≤ target) (h2 : s.cap < target + 1) :
    (ensure_calculated s target).cap = specGrowCap s.cap (target + 1)
    ∧ (∀ c : Nat, isPow2 (bitCeil c) ∧ c ≤ bitCeil c ∧
        ∀ p, isPow2 p → c ≤ p → bitCeil c ≤ p)
    ∧ (1024 ≤ max (target + 1) (3 * s.cap / 2) →
        (ensure_calculated s target).cap = max (target + 1) (3 * s.cap / 2)) := by
  have hcap : (ensure_calculated s target).cap = growRequest s.cap (target + 1) := by
    unfold ensure_calculated
    rw [if_neg (by omega)]
    simp [h2]
  refine ⟨by rw [hcap, grow_eq_spec],
    fun c => ⟨bitCeil_pow2 c, bitCeil_ge c, fun p hp hcp => bitCeil_min c p hp hcp⟩,
    ?_⟩
  intro hbig
  rw [hcap, grow_eq_spec]
  unfold specGrowCap
  rw [if_neg (by omega)]

/-- Witness for C5: an empty container (capacity 0), target index 5. -/
theorem growth_policy_c5_witness :
    (ensure_calculated (autoseq_mk fibFormula []) 5).cap
      = specGrowCap (autoseq_mk fibFormula []).cap (5 + 1) :=
  (growth_policy_c5 (autoseq_mk fibFormula []) 5 (by decide) (by decide)).1

/-- C6 (slice correctness): for `start ≤ end`, `slice(start, end)` is the
empty view when `start = end` (computing nothing); otherwise it first
ensures computation through `end - 1` and returns exactly `view()`
restricted to `[start, end)`: length `end - start`, element `i` being the
cached element `start + i`. -/
theorem slice_correct_c6 {T : Type} (s : Autoseq T) (a b : Nat) (hab : a ≤ b) :
    (a = b → slice_access s a b = some (s, []))
    ∧ (a < b →
        slice_access s a b
          = some (ensure_calculated s (b - 1),
              ((view (ensure_calculated s (b - 1))).drop a).take (b - a))
        ∧ b ≤ (view (ensure_calculated s (b - 1))).length
        ∧ ((view (ensure_calculated s (b - 1))).drop a).take (b - a)
            = ((view (ensure_calculated s (b - 1))).take b).drop a
        ∧ (((view (ensure_calculated s (b - 1))).drop a).take (b - a)).length
            = b - a
        ∧ ∀ i, i < b - a →
            (((view (ensure_calculated s (b - 1))).drop a).take (b - a))[i]?
              = (view (ensure_calculated s (b - 1)))[a + i]?) := by
  constructor
  · intro h
    unfold slice_access
    rw [if_pos hab, if_pos h]
  · intro hab2
    have hne : ¬ a = b := by omega
    have hlen : (view (ensure_calculated s (b - 1))).length
        = max s.cache.length b := by
      show (ensure_calculated s (b - 1)).cache.length = max s.cache.length b
      rw [ensure_length]
      congr 1
      omega
    refine ⟨?_, by omega, (List.drop_take b a _).symm, ?_, ?_⟩
    · unfold slice_access
      rw [if_pos hab, if_neg hne]
      rfl
    · rw [List.length_take, List.length_drop]
      omega
    · intro i hi
      rw [List.getElem?_take_of_lt hi, List.getElem?_drop]

/-- Witness for C6 at the Fibonacci container, slice `[1, 3)`. -/
theorem slice_correct_c6_witness :
    slice_access fib0 1 3
      = some (ensure_calculated fib0 (3 - 1),
          ((view (ensure_calculated fib0 (3 - 1))).drop 1).take (3 - 1)) :=
  (((slice_correct_c6 fib0 1 3 (by decide)).2) (by decide)).1

/-- C7 (snapshot duality): the l-value `snapshot()` returns a copy equal to
`view()` and leaves the container (state, size, elements) unchanged; the
r-value `snapshot()` returns the same sequence of values and leaves the
source with `size() = 0`. -/
theorem snapshot_duality_c7 {T : Type} (s : Autoseq T) :
    (snapshot_copy s).1 = view s
    ∧ (snapshot_copy s).2 = s
    ∧ size (snapshot_copy s).2 = size s
    ∧ view (snapshot_copy s).2 = view s
    ∧ (snapshot_move s).1 = view s
    ∧ size (snapshot_move s).2 = 0 :=
  ⟨rfl, rfl, rfl, rfl, rfl, rfl⟩

/-- C8 (construction): constructing with a rule and `k` seed values gives
size `k`, with the seeds, converted to the element type, at indices
`0..k-1` in argument order; the cache after construction does not depend on
the formula (the formula is not invoked during construction), and any
subsequent operation sequence only ever invokes the formula with indices
`≥ k`. -/
theorem construction_seeds_c8 {S T : Type} (f : Nat → List T → T)
    (convT : S → T) (seeds : List S) :
    size (autoseq_mk_of f convT seeds) = seeds.length
    ∧ (autoseq_mk_of f convT seeds).cache = seeds.map convT
    ∧ (∀ i, i < seeds.length →
        (autoseq_mk_of f convT seeds).cache[i]? = (seeds[i]?).map convT)
    ∧ (∀ g : Nat → List T → T,
        (autoseq_mk_of g convT seeds).cache = (autoseq_mk_of f convT seeds).cache)
    ∧ (∀ (ops : List Op) (j : Nat),
        j ∈ (runOps (autoseq_mk_of f convT seeds) ops).2.map Prod.fst →
          seeds.length ≤ j) := by
  refine ⟨by simp [size, autoseq_mk_of, autoseq_mk], rfl, ?_, fun g => rfl, ?_⟩
  · intro i _
    simp [autoseq_mk_of, autoseq_mk]
  · intro ops j hj
    have h := (runOps_spec ops (autoseq_mk_of f convT seeds)).2
    rw [h, List.mem_range'_1] at hj
    have hlen : (autoseq_mk_of f convT seeds).cache.length = seeds.length := by
      simp [autoseq_mk_of, autoseq_mk]
    omega

/-- Witness for C8: seeds `0, 1` with the identity conversion. -/
theorem construction_seeds_c8_witness :
    size (autoseq_mk_of fibFormula id [0, 1]) = ([0, 1] : List Nat).length :=
  (construction_seeds_c8 fibFormula id [0, 1]).1

/-- C9 (context preconditions): for a context whose history has length equal
to the current index `n`: if `n ≥ 1` then `last()` succeeds (the assertion
branch is unreachable) and returns element `n - 1`; if `i < n` then
`operator[](i)` succeeds (the assertion branch is unreachable) and returns
element `i`. -/
theorem context_access_c9 {T : Type} (c : MathContext T)
    (hc : c.history.length = c.index_val) :
    (1 ≤ c.index_val →
      ∃ v, MathContext.last c = some v ∧ c.history[c.index_val - 1]? = some v)
    ∧ (∀ i, i < c.index_val →
        ∃ v, MathContext.getIdx c i = some v ∧ c.history[i]? = some v) := by
  constructor
  · intro h1
    have hlt : c.index_val - 1 < c.history.length := by omega
    have h2 : MathContext.last c = c.history[c.index_val - 1]? := by
      unfold MathContext.last
      rw [List.getLast?_eq_getElem?, hc]
    obtain ⟨v, hv⟩ : ∃ v, c.history[c.index_val - 1]? = some v := by
      rw [List.getElem?_eq_getElem hlt]
      exact ⟨_, rfl⟩
    exact ⟨v, by rw [h2, hv], hv⟩
  · intro i hi
    have hlt : i < c.history.length := by omega
    obtain ⟨v, hv⟩ : ∃ v, c.history[i]? = some v := by
      rw [List.getElem?_eq_getElem hlt]
      exact ⟨_, rfl⟩
    exact ⟨v, hv, hv⟩

/-- Witness for C9: a context at index 2 over the two-element history
`[10, 20]`. -/
theorem context_access_c9_witness :
    ∃ v, MathContext.getIdx (MathContext.mk 2 [10, 20]) 1 = some v
      ∧ ([10, 20] : List Nat)[1]? = some v :=
  (context_access_c9 (MathContext.mk 2 [10, 20]) (by decide)).2 1 (by decide)

/-- C10 (after a consuming snapshot): the source is left with an empty cache
(the seeds are not reinstated) but keeps its formula and remains usable; a
subsequent access to index `n` invokes the formula once for every index
`0..n` — former seed indices included — the invocation for index 0 receiving
an empty history, and every resulting element (indices `0..k-1` included) is
formula-computed rather than a directly supplied seed. -/
theorem consuming_snapshot_reset_c10 {T : Type} (s : Autoseq T) (n : Nat) :
    size (snapshot_move s).2 = 0
    ∧ (snapshot_move s).2.formula = s.formula
    ∧ ensureTrace (snapshot_move s).2 n
        = (List.range' 0 (n + 1)).map
            (fun j => (j, (ensure_calculated (snapshot_move s).2 n).cache.take j))
    ∧ (ensureTrace (snapshot_move s).2 n).head? = some (0, [])
    ∧ (ensure_calculated (snapshot_move s).2 n).cache.length = n + 1
    ∧ ∀ i, i ≤ n →
        (ensure_calculated (snapshot_move s).2 n).cache[i]?
          = some (s.formula i
              ((ensure_calculated (snapshot_move s).2 n).cache.take i)) := by
  have htr : ensureTrace (snapshot_move s).2 n
      = (List.range' 0 (n + 1)).map
          (fun j => (j, (ensure_calculated (snapshot_move s).2 n).cache.take j)) :=
    ensureTrace_spec (snapshot_move s).2 n
  refine ⟨rfl, rfl, htr, ?_, ?_, ?_⟩
  · rw [htr, List.range'_succ]
    simp
  · rw [ensure_length]
    have hl : ((snapshot_move s).2).cache.length = 0 := rfl
    rw [hl]
    omega
  · intro i hi
    rw [ensure_empty_cache (snapshot_move s).2 rfl n]
    exact fillN_get ((snapshot_move s).2).formula (n + 1) [] i (by simp)
      (by simp; omega)

/-- Witness for C10: the test's Fibonacci container after a consuming
snapshot, with a subsequent access to index 2. -/
theorem consuming_snapshot_reset_c10_witness :
    size (snapshot_move (autoseq_mk fibFormula [0, 1])).2 = 0 :=
  (consuming_snapshot_reset_c10 (autoseq_mk fibFormula [0, 1]) 2).1

end hyx
